import Mathlib

set_option maxHeartbeats 1000000

/-!
Verification of the EchoPro / echopop strata-based estimation and
apportionment engine.

Shallow embedding conventions:
* floating point values are modelled by ℚ (all arithmetic in the modelled
  code is exact field arithmetic plus comparisons);
* a NaN produced by numpy/pandas (a comparison with NaN, a 0/0, a value a
  pandas loop never assigned) is modelled by `none : Option ℚ`; a `none`
  result of a whole computation models a raised Python exception where the
  comment on the definition says so;
* division of a nonzero float by zero yields inf in numpy; wherever a
  modelled division can meet a zero denominator the embedding either
  returns `none` (covering both NaN and inf: the result is not a finite
  float) or the surrounding theorems carry the nonnegativity hypotheses
  under which the numerator is forced to zero as well, so that the 0/0 → NaN
  → fillna(0) path of the source coincides with the ℚ convention x / 0 = 0.

Sources embedded (from src/):
* EchoPro/computation/biomass_density.py : _get_bin_ind,
  _fill_missing_strata_indices, _get_strata_sig_b (haul level),
  _get_distribution_lengths_station_1/2, _compute_proportions,
  _get_tot_biomass_density;
* echopop/analysis.py : apportion_kriged_values.
-/

namespace Util

/-- First element of the list attaining the minimal key, like np.argmin
(on ties the earliest element wins, as np.argmin returns the first
occurrence of the minimum). -/
def argminList {α : Type} (f : α → ℕ) : List α → Option α
  | [] => none
  | x :: xs =>
    match argminList f xs with
    | none => some x
    | some m => if f m < f x then some m else some x

/-- First element attaining the minimal key together with the remaining
elements.  Used to model the selection of the two smallest entries that
np.argpartition(a, 2) places at positions 0 and 1 (the order and the tie
resolution inside that pair are unspecified by numpy; only the selected
set, hence the average of the two values, is used by the source). -/
def pickMin {α : Type} (f : α → ℕ) : List α → Option (α × List α)
  | [] => none
  | x :: xs =>
    match pickMin f xs with
    | none => some (x, [])
    | some (m, rest) => if f m < f x then some (m, x :: rest) else some (x, xs)

/-- Maximum of a list of integers (df.index.max()). -/
def listMax : List ℤ → Option ℤ
  | [] => none
  | x :: xs =>
    match listMax xs with
    | none => some x
    | some m => some (max x m)

/-- Minimum of a list of integers (df.index.min()). -/
def listMin : List ℤ → Option ℤ
  | [] => none
  | x :: xs =>
    match listMin xs with
    | none => some x
    | some m => some (min x m)

end Util

namespace BinIdx

/-!
ComputeBiomassDensity._get_bin_ind (EchoPro/computation/biomass_density.py).
The input array may contain NaN (`none`); every comparison with NaN is
false, so NaN indices land in no bin.  The three mask families of the
source (first bin, the loop over interior bins, last bin) are combined
into the single indexed predicate `binPred`, with exactly the same case
split: bin 0 tests v ≤ centers[0] + diff[0], bin n-1 tests
v > centers[n-2] + diff[n-2] (bin_diff[-1] of the source), and an interior
bin j = i+1 of the loop tests centers[i] + diff[i] < v ≤
centers[i+1] + diff[i+1].
-/

/-- np.diff(centered_bins) / 2 at index i. -/
def binDiff (c : ℕ → ℚ) (i : ℕ) : ℚ := (c (i + 1) - c i) / 2

/-- Upper boundary of bin i : centers[i] + bin_diff[i]. -/
def boundary (c : ℕ → ℚ) (i : ℕ) : ℚ := c i + binDiff c i

/-- The boolean mask the source computes for bin j (n = number of centers). -/
def binPred (c : ℕ → ℚ) (n j : ℕ) (v : ℚ) : Bool :=
  if j = 0 then decide (v ≤ boundary c 0)
  else if j = n - 1 then decide (boundary c (n - 2) < v)
  else decide (boundary c (j - 1) < v) && decide (v ≤ boundary c j)

/-- np.argwhere(mask).flatten(): the ascending list of indices of the
input whose entry satisfies the mask. -/
def argwhere (input : List (Option ℚ)) (p : Option ℚ → Bool) : List ℕ :=
  (List.range input.length).filter (fun i => p (input.getD i none))

/-- Lift a float mask to Option: a comparison with NaN is false. -/
def optPred (p : ℚ → Bool) : Option ℚ → Bool
  | none => false
  | some v => p v

/-- The function _get_bin_ind: one index list per bin. -/
def get_bin_ind (input : List (Option ℚ)) (c : ℕ → ℚ) (n : ℕ) : List (List ℕ) :=
  (List.range n).map (fun j => argwhere input (optPred (binPred c n j)))

end BinIdx

namespace GapFill

/-!
ComputeBiomassDensity._fill_missing_strata_indices
(EchoPro/computation/biomass_density.py).  The per-stratum table is a list
of (stratum id, value) rows in index order; filled rows are appended at
the end, exactly as df.loc[new] = value appends.  The set of missing
strata is iterated in ascending order (the missing ids are small
nonnegative ints in the data, for which CPython set iteration is
ascending).  np.argpartition(dists, 2) raises ValueError when dists has
fewer than 3 entries (kth = 2 out of bounds); this raised exception is
modelled by a `none` result.
-/

/-- Distance of a missing stratum id to a table row: np.abs(strata - df.index). -/
def dist (s : ℤ) (p : ℤ × ℚ) : ℕ := (s - p.1).natAbs

/-- The values at the two known strata closest to s, as selected by
np.argpartition(dists, 2) positions 0 and 1; none models the ValueError
raised when the table has fewer than 3 rows. -/
def closestTwo (s : ℤ) (df : List (ℤ × ℚ)) : Option (ℚ × ℚ) :=
  if df.length < 3 then none
  else
    match Util.pickMin (dist s) df with
    | none => none
    | some (p, rest) =>
      match Util.pickMin (dist s) rest with
      | none => none
      | some (q, _) => some (p.2, q.2)

/-- df.loc[k] for a known key k. -/
def lookupVal (df : List (ℤ × ℚ)) (k : ℤ) : ℚ := ((df.lookup k).getD 0)

/-- One iteration of the fill loop for missing stratum s, acting on the
current table (which already contains the rows filled by earlier
iterations). -/
def fillStep (minK maxK : ℤ) (oneVal : Bool) (df : List (ℤ × ℚ)) (s : ℤ) :
    Option (List (ℤ × ℚ)) :=
  if oneVal then some (df ++ [(s, lookupVal df maxK)])
  else if maxK < s then some (df ++ [(s, lookupVal df maxK)])
  else if s < minK then some (df ++ [(s, lookupVal df minK)])
  else
    match closestTwo s df with
    | none => none
    | some (v1, v2) => some (df ++ [(s, (v1 + v2) / 2)])

/-- The function _fill_missing_strata_indices: min/max known ids and the
single-known-stratum flag are computed once before the loop; the loop then
processes the missing ids (in ascending order) against the growing table. -/
def fillMissing (df : List (ℤ × ℚ)) (missing : List ℤ) : Option (List (ℤ × ℚ)) :=
  if missing = [] then some df
  else
    match Util.listMax (df.map Prod.fst), Util.listMin (df.map Prod.fst) with
    | some maxK, some minK =>
      missing.foldlM (fillStep minK maxK (decide (df.length = 1))) df
    | _, _ => none

end GapFill

namespace SigB

/-!
ComputeBiomassDensity._get_strata_sig_b (EchoPro/computation/biomass_density.py),
haul level.  The per-length linear backscatter 10 ^ ((20 log10 L - 68) / 10)
is transcendental, so it is kept abstract as a parameter
sigma : ℚ → ℚ (the source itself flags the regression pair as a future
configurable input); every theorem below holds for an arbitrary sigma.
The loop runs over the hauls of the specimen table only; a haul present
only in the length table is never assigned, its sig_bs_haul stays NaN
(`none`).  A specimen haul with EXACTLY ONE station-1 row crashes the
whole computation: length_df.loc[haul] is then a Series, so
["length"].values raises AttributeError; this is also modelled by `none`
(no finite value is ever produced for the haul).
-/

/-- One row of specimen_df restricted to the length and weight columns;
none models NaN. -/
structure SpecRow where
  haul : ℕ
  len : Option ℚ
  weight : Option ℚ
  deriving DecidableEq

/-- One row of length_df (station 1). -/
structure LenRow where
  haul : ℕ
  len : ℚ
  count : ℚ
  deriving DecidableEq

/-- The lengths of haul h surviving specimen_df[["length","weight"]].dropna(). -/
def specLens (spec : List SpecRow) (h : ℕ) : List ℚ :=
  spec.filterMap (fun r =>
    match r.len, r.weight with
    | some l, some _ => if r.haul = h then some l else none
    | _, _ => none)

/-- The station-1 rows of haul h. -/
def lenRowsOf (len : List LenRow) (h : ℕ) : List LenRow :=
  len.filter (fun r => r.haul == h)

/-- The haul-level mean differential backscattering cross-section
(sig_bs_haul); none models the NaN left for hauls absent from the
specimen table, and also the AttributeError raised when the haul has
exactly one station-1 row (a single-row .loc returns a Series whose
scalar ["length"] has no .values). -/
def sigBsHaul (sigma : ℚ → ℚ) (spec : List SpecRow) (len : List LenRow) (h : ℕ) :
    Option ℚ :=
  let sl := specLens spec h
  if sl.isEmpty then none
  else
    let lr := lenRowsOf len h
    if lr.length = 1 then none
    else
      let sumLen := (lr.map (fun r => sigma r.len * r.count)).sum
      let numLen := (lr.map (fun r => r.count)).sum
      some (((sl.map sigma).sum + sumLen) / (numLen + sl.length))

end SigB

namespace Comp

/-!
ComputeBiomassDensity._get_distribution_lengths_station_1/2 and
_compute_proportions (EchoPro/computation/biomass_density.py).  `none`
models a non-finite float (NaN or inf) produced by a division whose
denominator is zero; such a value propagates through later arithmetic,
exactly as in numpy.
-/

/-- Per-bin station-1 counts: sum of length_count over the indices of each bin. -/
def binCounts1 (rows : List (ℚ × ℚ)) (c : ℕ → ℚ) (n : ℕ) : List ℚ :=
  (BinIdx.get_bin_ind (rows.map (fun r => some r.1)) c n).map
    (fun b => (b.map (fun i => (rows.getD i (0, 0)).2)).sum)

/-- The function _get_distribution_lengths_station_1: bin counts divided by their total. -/
def distributionStation1 (rows : List (ℚ × ℚ)) (c : ℕ → ℚ) (n : ℕ) :
    List (Option ℚ) :=
  let cnts := binCounts1 rows c n
  cnts.map (fun cnt => if cnts.sum = 0 then none else some (cnt / cnts.sum))

/-- Per-bin station-2 counts: the size of each bin (each specimen weight 1). -/
def binCounts2 (lengths : List ℚ) (c : ℕ → ℚ) (n : ℕ) : List ℚ :=
  (BinIdx.get_bin_ind (lengths.map some) c n).map (fun b => (b.length : ℚ))

/-- The function _get_distribution_lengths_station_2. -/
def distributionStation2 (lengths : List ℚ) (c : ℕ → ℚ) (n : ℕ) :
    List (Option ℚ) :=
  let cnts := binCounts2 lengths c n
  cnts.map (fun cnt => if cnts.sum = 0 then none else some (cnt / cnts.sum))

/-- Output record of _compute_proportions. -/
structure PropOut where
  specMProp : Option ℚ
  specFProp : Option ℚ
  lenMProp : Option ℚ
  lenFProp : Option ℚ
  fac1M : Option ℚ
  fac1F : Option ℚ
  fac2M : Option ℚ
  fac2F : Option ℚ
  totProp1 : Option ℚ
  totProp2 : Option ℚ

/-- The function _compute_proportions.  nM, nF are the station-2 male/female specimen
counts; lenTot, lenM, lenF the station-1 total / male / female
length_count sums.  The sequential reassignments of the source are kept:
fac2 of a sex divides by the already renormalised fac1 of that sex, and
the recomputed tot_prop1 feeds the recomputation of tot_prop2. -/
def computeProportions (nM nF : ℕ) (lenTot lenM lenF : ℚ) : PropOut :=
  let totalN : ℚ := (nM : ℚ) + (nF : ℚ) + lenTot
  if totalN = 0 then ⟨none, none, none, none, none, none, none, none, none, none⟩
  else
    let mP := (nM : ℚ) / totalN
    let fP := (nF : ℚ) / totalN
    let tp2 := mP + fP
    let tp1 := 1 - tp2
    let f1M : Option ℚ := if tp1 + mP = 0 then none else some (tp1 / (tp1 + mP))
    let f1F : Option ℚ := if tp1 + fP = 0 then none else some (tp1 / (tp1 + fP))
    let f2M : Option ℚ :=
      f1M.bind (fun x => if x + mP = 0 then none else some (mP / (x + mP)))
    let f2F : Option ℚ :=
      f1F.bind (fun x => if x + fP = 0 then none else some (fP / (x + fP)))
    let t1 : Option ℚ := if tp1 + tp2 = 0 then none else some (tp1 / (tp1 + tp2))
    let t2 : Option ℚ :=
      t1.bind (fun x => if x + tp2 = 0 then none else some (tp2 / (x + tp2)))
    ⟨some mP, some fP, some (lenM / totalN), some (lenF / totalN),
      f1M, f1F, f2M, f2F, t1, t2⟩

end Comp

namespace Density

/-!
ComputeBiomassDensity._get_tot_biomass_density
(EchoPro/computation/biomass_density.py), one transect interval.
-/

/-- np.round: round half to even (numpy banker rounding). -/
def npRound (q : ℚ) : ℤ :=
  let f : ℤ := ⌊q⌋
  let r : ℚ := q - (f : ℚ)
  if r < 1 / 2 then f
  else if 1 / 2 < r then f + 1
  else if f % 2 = 0 then f else f + 1

/-- The per-interval densities produced by _get_tot_biomass_density. -/
structure DensitySplit where
  maleN : ℚ
  femaleN : ℚ
  unsexedN : ℚ
  bioMale : ℚ
  bioFemale : ℚ
  bioUnsexed : ℚ
  bioTotal : ℚ

/-- numDensity is the interval's areal numerical density, mProp/fProp the
stratum sex proportions, wM/wF/wAll the stratum averaged weights. -/
def getTotBiomassDensity (numDensity mProp fProp wM wF wAll : ℚ) : DensitySplit :=
  let m : ℚ := (npRound (numDensity * mProp) : ℤ)
  let f : ℚ := (npRound (numDensity * fProp) : ℤ)
  let u : ℚ := numDensity - m - f
  ⟨m, f, u, m * wM, f * wF, u * wAll, m * wM + f * wF + u * wAll⟩

end Density

namespace Apportion

/-!
apportion_kriged_values (echopop/analysis.py).  The stratified kriged
totals and the three weight-proportion tables are total functions over
Fin S (strata), Sex, Fin L (length bins) and Fin A (age bins); the pandas
pivot tables with aggfunc sum over strata become the Finset sums below.
The sex categories appearing in the proportion tables are male and female
(the "all" pseudo-category is appended only at the very end of the source
and is excluded from every total considered here, as in the claims).
-/

inductive Sex : Type where
  | male : Sex
  | female : Sex
  deriving DecidableEq

instance : Fintype Sex :=
  ⟨⟨{Sex.male, Sex.female}, by simp⟩, fun x => by cases x <;> simp⟩

def Sex.other : Sex → Sex
  | Sex.male => Sex.female
  | Sex.female => Sex.male

/-- The inputs of apportion_kriged_values: kriged biomass per stratum and
the aged / unaged weight-proportion tables. -/
structure Inputs (S L A : ℕ) where
  krig : Fin S → ℚ
  agedProp : Fin S → Sex → Fin L → Fin A → ℚ
  unagedProp : Fin S → Sex → Fin L → ℚ
  overallUnaged : Fin S → Sex → ℚ

variable {S L A : ℕ}

/-- aged_pivot : biomass_apportioned summed over strata per (sex, length bin, age bin). -/
def agedPivot (P : Inputs S L A) (sex : Sex) (l : Fin L) (a : Fin A) : ℚ :=
  ∑ s, P.agedProp s sex l a * P.krig s

/-- unaged_pivot : biomass_apportioned_unaged summed over strata per (length bin, sex). -/
def unagedPivot (P : Inputs S L A) (l : Fin L) (sex : Sex) : ℚ :=
  ∑ s, P.unagedProp s sex l * P.overallUnaged s sex * P.krig s

/-- aged_length_totals : aged_pivot summed over age bins. -/
def agedLengthTotal (P : Inputs S L A) (sex : Sex) (l : Fin L) : ℚ :=
  ∑ a, agedPivot P sex l a

/-- The raw redistribution unaged_pivot * aged_pivot / aged_length_totals
with .fillna(0).  ℚ division by zero is 0, which agrees with the source
whenever the numerator vanishes too (0/0 → NaN → fillna(0)); under the
nonnegativity hypotheses of the theorems a zero aged length total forces
every aged_pivot entry of the bin, hence the numerator, to zero, so the
inf case of numpy never arises there. -/
def unagedRedist (P : Inputs S L A) (sex : Sex) (l : Fin L) (a : Fin A) : ℚ :=
  unagedPivot P l sex * agedPivot P sex l a / agedLengthTotal P sex l

/-- np.where(summed_aged_length_totals != 0): the ascending list of length
bins with nonzero aged mass for the sex. -/
def nonzeroAgedList (P : Inputs S L A) (sex : Sex) : List (Fin L) :=
  (List.finRange L).filter (fun l => decide (agedLengthTotal P sex l ≠ 0))

/-- A length bin that has nonzero unaged mass but zero aged mass, for the
sex: imputation is required there. -/
def needImpute (P : Inputs S L A) (sex : Sex) (l : Fin L) : Prop :=
  agedLengthTotal P sex l = 0 ∧ unagedPivot P l sex ≠ 0

instance (P : Inputs S L A) (sex : Sex) (l : Fin L) : Decidable (needImpute P sex l) := by
  unfold needImpute; exact instDecidableAnd

/-- Distance between two length-bin indices. -/
def distL (l m : Fin L) : ℕ := ((l : ℤ) - (m : ℤ)).natAbs

/-- The nearest length bin with nonzero aged mass:
nonzero_aged[np.argmin(np.abs(zero_bin - nonzero_aged))].  On equal
distances np.argmin keeps the first, i.e. the lower bin index. -/
def nearestNonzero (P : Inputs S L A) (sex : Sex) (l : Fin L) : Option (Fin L) :=
  Util.argminList (distL l) (nonzeroAgedList P sex)

/-- The imputation of the source crashes for a sex (ValueError) exactly
when the sex has at least one zero-aged length bin and no length bin with
nonzero aged mass.  The source enters the per-sex block whenever
len(male_nonzero_unaged) > 0, and that length is the number of ZERO-AGED
bins (male_nonzero_unaged is the boolean series indexed by male_zero_aged),
not the number of bins needing imputation; inside, np.argmin(..., axis=1)
raises on the empty nonzero-aged array because the reduction axis has
length zero, regardless of how many rows would be updated.  So a sex with
no aged mass at any length bin crashes the call even if it has no unaged
mass either. -/
def sexCrash (P : Inputs S L A) (sex : Sex) : Prop :=
  (∃ l, agedLengthTotal P sex l = 0) ∧ nonzeroAgedList P sex = []

instance (P : Inputs S L A) (sex : Sex) : Decidable (sexCrash P sex) := by
  unfold sexCrash; exact instDecidableAnd

/-- The unaged apportioned values after the imputation step: rows needing
imputation are overwritten with the nearest nonzero bin's age shape scaled
by the bin's unaged mass. -/
def unagedFinal (P : Inputs S L A) (sex : Sex) (l : Fin L) (a : Fin A) : ℚ :=
  if needImpute P sex l then
    match nearestNonzero P sex l with
    | some m => unagedPivot P l sex * agedPivot P sex m a / agedLengthTotal P sex m
    | none => 0
  else unagedRedist P sex l a

/-- kriged_table entry: unaged (imputed) plus aged apportioned biomass. -/
def table (P : Inputs S L A) (sex : Sex) (l : Fin L) (a : Fin A) : ℚ :=
  unagedFinal P sex l a + agedPivot P sex l a

/-- Sum of the kriged_table over the sexed categories (the check of the
source compares this against the kriged strata total). -/
def totalApportioned (P : Inputs S L A) : ℚ :=
  ∑ sex, ∑ l, ∑ a, table P sex l a

/-- kriged_strata.sum(). -/
def totalKriged (P : Inputs S L A) : ℚ := ∑ s, P.krig s

/-- The returned tables together with the warning flag of the final
equality check (warnings.warn is non-fatal: the result is returned in
either case). -/
structure Output (S L A : ℕ) where
  tbl : Sex → Fin L → Fin A → ℚ
  warned : Bool

/-- apportion_kriged_values; none models the ValueError raised inside the
imputation block. -/
def apportion (P : Inputs S L A) : Option (Output S L A) :=
  if sexCrash P Sex.male ∨ sexCrash P Sex.female then none
  else some ⟨fun sex l a => table P sex l a,
    decide (totalApportioned P ≠ totalKriged P)⟩

end Apportion

/-- A concrete two-center bin array, shared by several witnesses. -/
def cW : ℕ → ℚ := fun i => if i = 0 then 10 else 20

/-- Concrete apportionment input: one stratum, one length bin, one age
bin, all mass aged and male, proportions summing to one; the female table
is entirely empty, so the source raises in the female imputation block
even though no bin needs imputation. -/
def inputsC1 : Apportion.Inputs 1 1 1 :=
  ⟨fun _ => 5,
   fun _ sex _ _ => if sex = Apportion.Sex.male then 1 else 0,
   fun _ _ _ => 0,
   fun _ _ => 0⟩

/-- Concrete apportionment input: one stratum, one length bin, one age
bin, the aged weight split evenly between the sexes (so both sexes have
nonzero aged mass and the imputation block never runs), proportions
summing to one. -/
def inputsC1w : Apportion.Inputs 1 1 1 :=
  ⟨fun _ => 5,
   fun _ _ _ _ => 1 / 2,
   fun _ _ _ => 0,
   fun _ _ => 0⟩

/-- Concrete apportionment input: male needs imputation at bin 0 and has
aged mass at bin 1, while the female table has unaged mass at bin 0 but no
aged mass at any length bin (total imputation failure for females). -/
def inputsC2x : Apportion.Inputs 1 2 1 :=
  ⟨fun _ => 1,
   fun _ sex l _ => if sex = Apportion.Sex.male ∧ l = 1 then 1 / 2 else 0,
   fun _ _ l => if l = 0 then 1 / 4 else 0,
   fun _ _ => 1⟩

/-- Concrete apportionment input: both sexes have aged mass at length bin
1 only; the male table needs imputation at length bin 0 (nonzero unaged,
zero aged), the female table has no unaged mass; no sex has an empty
nonzero-aged list, so the source completes. -/
def inputsC2w : Apportion.Inputs 1 2 1 :=
  ⟨fun _ => 1,
   fun _ _ l _ => if l = 1 then 1 / 2 else 0,
   fun _ sex l => if sex = Apportion.Sex.male ∧ l = 0 then 1 / 4 else 0,
   fun _ _ => 1⟩

/-- Concrete apportionment input with male unaged mass and no aged mass
anywhere: total imputation failure. -/
def inputsC3x : Apportion.Inputs 1 1 1 :=
  ⟨fun _ => 1, fun _ _ _ _ => 0,
   fun _ sex _ => if sex = Apportion.Sex.male then 1 else 0, fun _ _ => 1⟩

/-- Concrete apportionment input whose proportions do not sum to one
(each sex carries aged weight proportion 1/4, nothing unaged), so the
apportioned total (1) diverges from the kriged total (2); both sexes have
nonzero aged mass at the single length bin, so the source reaches the
equality check without raising. -/
def inputsC3w : Apportion.Inputs 1 1 1 :=
  ⟨fun _ => 2,
   fun _ _ _ _ => 1 / 4,
   fun _ _ _ => 0, fun _ _ => 0⟩

/-! ## Helper lemmas -/

theorem pickMin_eq_none {α : Type} (f : α → ℕ) (l : List α) :
    Util.pickMin f l = none ↔ l = [] := by
  cases l with
  | nil => simp [Util.pickMin]
  | cons x xs =>
    simp only [Util.pickMin]
    cases hx : Util.pickMin f xs with
    | none => simp
    | some pr =>
      obtain ⟨m, rest⟩ := pr
      by_cases hlt : f m < f x <;> simp [hlt]

theorem pickMin_spec {α : Type} (f : α → ℕ) :
    ∀ (l : List α) (m : α) (rest : List α), Util.pickMin f l = some (m, rest) →
      m ∈ l ∧ (∀ x ∈ l, f m ≤ f x) ∧ l.Perm (m :: rest) := by
  intro l
  induction l with
  | nil => intro m rest h; simp [Util.pickMin] at h
  | cons x xs ih =>
    intro m rest h
    cases hx : Util.pickMin f xs with
    | none =>
      have hxs : xs = [] := (pickMin_eq_none f xs).mp hx
      subst hxs
      simp only [Util.pickMin, Option.some.injEq, Prod.mk.injEq] at h
      obtain ⟨hm, hr⟩ := h
      subst hm
      subst hr
      exact ⟨List.mem_cons_self x [], by simp, List.Perm.refl _⟩
    | some pr =>
      obtain ⟨m2, rest2⟩ := pr
      simp only [Util.pickMin, hx] at h
      obtain ⟨hmem, hmin, hperm⟩ := ih m2 rest2 hx
      by_cases hlt : f m2 < f x
      · rw [if_pos hlt] at h
        simp only [Option.some.injEq, Prod.mk.injEq] at h
        obtain ⟨hm, hr⟩ := h
        subst hm
        subst hr
        refine ⟨List.mem_cons_of_mem x hmem, ?_, ?_⟩
        · intro y hy
          rcases List.mem_cons.mp hy with hy | hy
          · subst hy; exact le_of_lt hlt
          · exact hmin y hy
        · exact (hperm.cons x).trans (List.Perm.swap _ x rest2)
      · rw [if_neg hlt] at h
        simp only [Option.some.injEq, Prod.mk.injEq] at h
        obtain ⟨hm, hr⟩ := h
        subst hm
        subst hr
        refine ⟨List.mem_cons_self _ _, ?_, List.Perm.refl _⟩
        intro y hy
        rcases List.mem_cons.mp hy with hy | hy
        · subst hy; exact le_refl _
        · exact le_trans (not_lt.mp hlt) (hmin y hy)

theorem closestTwo_spec (s : ℤ) (df : List (ℤ × ℚ)) (h3 : 3 ≤ df.length)
    (hnd : df.Nodup)
    (hdist : ∀ p ∈ df, ∀ q ∈ df, p ≠ q → GapFill.dist s p ≠ GapFill.dist s q) :
    ∃ p q, p ∈ df ∧ q ∈ df ∧ p ≠ q ∧
      (∀ r ∈ df, r ≠ p → r ≠ q → GapFill.dist s p < GapFill.dist s r ∧
        GapFill.dist s q < GapFill.dist s r) ∧
      GapFill.closestTwo s df = some (p.2, q.2) := by
  cases hp : Util.pickMin (GapFill.dist s) df with
  | none =>
    have := (pickMin_eq_none _ df).mp hp
    subst this; simp at h3
  | some pr =>
    obtain ⟨p, rest⟩ := pr
    obtain ⟨hpmem, hpmin, hperm⟩ := pickMin_spec _ df p rest hp
    have hlen : df.length = rest.length + 1 := by
      have := hperm.length_eq; simpa using this
    cases hq : Util.pickMin (GapFill.dist s) rest with
    | none =>
      have := (pickMin_eq_none _ rest).mp hq
      subst this; simp at hlen; omega
    | some qr =>
      obtain ⟨q, rest2⟩ := qr
      obtain ⟨hqmem, hqmin, _⟩ := pickMin_spec _ rest q rest2 hq
      have hqdf : q ∈ df := hperm.mem_iff.mpr (List.mem_cons_of_mem p hqmem)
      have hnd2 : (p :: rest).Nodup := hperm.nodup_iff.mp hnd
      have hpnotin : p ∉ rest := (List.nodup_cons.mp hnd2).1
      have hpq : p ≠ q := by
        intro h; subst h; exact hpnotin hqmem
      refine ⟨p, q, hpmem, hqdf, hpq, ?_, ?_⟩
      · intro r hr hrp hrq
        have hrrest : r ∈ rest := by
          rcases List.mem_cons.mp (hperm.mem_iff.mp hr) with h | h
          · exact absurd h hrp
          · exact h
        constructor
        · exact lt_of_le_of_ne (hpmin r hr)
            (hdist p hpmem r hr (fun h => hrp h.symm))
        · exact lt_of_le_of_ne (hqmin r hrrest)
            (hdist q hqdf r hr (fun h => hrq h.symm))
      · unfold GapFill.closestTwo
        rw [if_neg (by omega)]
        simp only [hp, hq]

theorem listMin_eq_none (l : List ℤ) : Util.listMin l = none ↔ l = [] := by
  cases l with
  | nil => simp [Util.listMin]
  | cons x xs =>
    simp only [Util.listMin]
    cases hx : Util.listMin xs with
    | none => simp
    | some m => simp

theorem listMax_mem : ∀ (l : List ℤ) (b : ℤ), Util.listMax l = some b → b ∈ l := by
  intro l
  induction l with
  | nil => intro b h; simp [Util.listMax] at h
  | cons x xs ih =>
    intro b h
    cases hx : Util.listMax xs with
    | none =>
      simp only [Util.listMax, hx, Option.some.injEq] at h
      subst h; exact List.mem_cons_self _ _
    | some m =>
      simp only [Util.listMax, hx, Option.some.injEq] at h
      subst h
      rcases le_total x m with hle | hle
      · rw [max_eq_right hle]; exact List.mem_cons_of_mem _ (ih m hx)
      · rw [max_eq_left hle]; exact List.mem_cons_self _ _

theorem listMin_le : ∀ (l : List ℤ) (a : ℤ), Util.listMin l = some a →
    ∀ y ∈ l, a ≤ y := by
  intro l
  induction l with
  | nil => intro a h; simp [Util.listMin] at h
  | cons x xs ih =>
    intro a h y hy
    cases hx : Util.listMin xs with
    | none =>
      have hxs : xs = [] := (listMin_eq_none xs).mp hx
      subst hxs
      simp only [Util.listMin, Option.some.injEq] at h
      subst h
      rcases List.mem_cons.mp hy with rfl | hy2
      · exact le_refl _
      · simp at hy2
    | some m =>
      simp only [Util.listMin, hx, Option.some.injEq] at h
      subst h
      rcases List.mem_cons.mp hy with rfl | hy2
      · exact min_le_left _ _
      · exact le_trans (min_le_right x m) (ih m hx y hy2)

theorem listMin_le_listMax (l : List ℤ) (a b : ℤ)
    (hmin : Util.listMin l = some a) (hmax : Util.listMax l = some b) : a ≤ b :=
  listMin_le l a hmin b (listMax_mem l b hmax)

theorem fillMissing_single (df : List (ℤ × ℚ)) (s minK maxK : ℤ)
    (hmax : Util.listMax (df.map Prod.fst) = some maxK)
    (hmin : Util.listMin (df.map Prod.fst) = some minK) :
    GapFill.fillMissing df [s] =
      GapFill.fillStep minK maxK (decide (df.length = 1)) df s := by
  unfold GapFill.fillMissing
  rw [if_neg (by simp)]
  simp only [hmax, hmin, List.foldlM_cons, List.foldlM_nil]
  cases GapFill.fillStep minK maxK (decide (df.length = 1)) df s <;> rfl

theorem sum_sex (f : Apportion.Sex → ℚ) :
    (∑ sex, f sex) = f Apportion.Sex.male + f Apportion.Sex.female := by
  have huniv : (Finset.univ : Finset Apportion.Sex) =
      {Apportion.Sex.male, Apportion.Sex.female} := by
    apply Finset.ext
    intro x
    cases x <;> simp
  rw [huniv, Finset.sum_insert (by simp), Finset.sum_singleton]

theorem mem_nonzeroAgedList {S L A : ℕ} (P : Apportion.Inputs S L A)
    (sex : Apportion.Sex) (l : Fin L) :
    l ∈ Apportion.nonzeroAgedList P sex ↔ Apportion.agedLengthTotal P sex l ≠ 0 := by
  simp [Apportion.nonzeroAgedList, List.mem_filter, List.mem_finRange]

theorem nonzeroAgedList_ne_nil {S L A : ℕ} {P : Apportion.Inputs S L A}
    {sex : Apportion.Sex} (h : ∃ m, Apportion.agedLengthTotal P sex m ≠ 0) :
    Apportion.nonzeroAgedList P sex ≠ [] := by
  obtain ⟨m, hm⟩ := h
  intro hnil
  have hmem := (mem_nonzeroAgedList P sex m).mpr hm
  rw [hnil] at hmem
  exact List.not_mem_nil m hmem

theorem argminList_eq_none {α : Type} (f : α → ℕ) (l : List α) :
    Util.argminList f l = none ↔ l = [] := by
  cases l with
  | nil => simp [Util.argminList]
  | cons x xs =>
    simp only [Util.argminList]
    cases hx : Util.argminList f xs with
    | none => simp
    | some m => by_cases hlt : f m < f x <;> simp [hlt]

theorem argminList_spec {α : Type} (f : α → ℕ) :
    ∀ (l : List α) (m : α), Util.argminList f l = some m →
      m ∈ l ∧ ∀ x ∈ l, f m ≤ f x := by
  intro l
  induction l with
  | nil => intro m h; simp [Util.argminList] at h
  | cons x xs ih =>
    intro m h
    cases hx : Util.argminList f xs with
    | none =>
      have hxs : xs = [] := (argminList_eq_none f xs).mp hx
      subst hxs
      simp only [Util.argminList, Option.some.injEq] at h
      subst h
      exact ⟨List.mem_cons_self _ _, by simp⟩
    | some m2 =>
      simp only [Util.argminList, hx] at h
      obtain ⟨hmem, hmin⟩ := ih m2 hx
      by_cases hlt : f m2 < f x
      · rw [if_pos hlt] at h
        simp only [Option.some.injEq] at h
        subst h
        refine ⟨List.mem_cons_of_mem x hmem, ?_⟩
        intro y hy
        rcases List.mem_cons.mp hy with hy | hy
        · subst hy; exact le_of_lt hlt
        · exact hmin y hy
      · rw [if_neg hlt] at h
        simp only [Option.some.injEq] at h
        subst h
        refine ⟨List.mem_cons_self _ _, ?_⟩
        intro y hy
        rcases List.mem_cons.mp hy with hy | hy
        · subst hy; exact le_refl _
        · exact le_trans (not_lt.mp hlt) (hmin y hy)

theorem argminList_of_ne_nil {α : Type} (f : α → ℕ) (l : List α) (h : l ≠ []) :
    ∃ m, Util.argminList f l = some m ∧ m ∈ l ∧ ∀ x ∈ l, f m ≤ f x := by
  cases hres : Util.argminList f l with
  | none => exact absurd ((argminList_eq_none f l).mp hres) h
  | some m =>
    obtain ⟨hmem, hmin⟩ := argminList_spec f l m hres
    exact ⟨m, rfl, hmem, hmin⟩

theorem not_sexCrash_of_nz {S L A : ℕ} {P : Apportion.Inputs S L A}
    {sex : Apportion.Sex} (h : ∃ m, Apportion.agedLengthTotal P sex m ≠ 0) :
    ¬ Apportion.sexCrash P sex := by
  rintro ⟨_, hnil⟩
  exact nonzeroAgedList_ne_nil h hnil

theorem apportion_eq_some {S L A : ℕ} (P : Apportion.Inputs S L A)
    (hm : ¬ Apportion.sexCrash P Apportion.Sex.male)
    (hf : ¬ Apportion.sexCrash P Apportion.Sex.female) :
    Apportion.apportion P =
      some ⟨fun sex l a => Apportion.table P sex l a,
        decide (Apportion.totalApportioned P ≠ Apportion.totalKriged P)⟩ := by
  unfold Apportion.apportion
  rw [if_neg (not_or.mpr ⟨hm, hf⟩)]

theorem agedPivot_nonneg {S L A : ℕ} (P : Apportion.Inputs S L A)
    (hk : ∀ s, 0 ≤ P.krig s) (ha : ∀ s sx m a, 0 ≤ P.agedProp s sx m a)
    (sex : Apportion.Sex) (l : Fin L) (a : Fin A) :
    0 ≤ Apportion.agedPivot P sex l a :=
  Finset.sum_nonneg fun s _ => mul_nonneg (ha s sex l a) (hk s)

theorem agedPivot_eq_zero_of_total {S L A : ℕ} (P : Apportion.Inputs S L A)
    (hk : ∀ s, 0 ≤ P.krig s) (ha : ∀ s sx m a, 0 ≤ P.agedProp s sx m a)
    {sex : Apportion.Sex} {l : Fin L}
    (h0 : Apportion.agedLengthTotal P sex l = 0) (a : Fin A) :
    Apportion.agedPivot P sex l a = 0 := by
  have := (Finset.sum_eq_zero_iff_of_nonneg
    (fun a _ => agedPivot_nonneg P hk ha sex l a)).mp h0
  exact this a (Finset.mem_univ a)

theorem sum_unagedRedist {S L A : ℕ} (P : Apportion.Inputs S L A)
    (sex : Apportion.Sex) (l : Fin L)
    (hz : Apportion.agedLengthTotal P sex l = 0 → Apportion.unagedPivot P l sex = 0) :
    (∑ a, Apportion.unagedRedist P sex l a) = Apportion.unagedPivot P l sex := by
  by_cases h0 : Apportion.agedLengthTotal P sex l = 0
  · simp [Apportion.unagedRedist, h0, hz h0]
  · simp only [Apportion.unagedRedist]
    rw [← Finset.sum_div, ← Finset.mul_sum]
    rw [show (∑ a, Apportion.agedPivot P sex l a) = Apportion.agedLengthTotal P sex l
      from rfl]
    rw [mul_div_assoc, div_self h0, mul_one]

/-! ## Claims -/

theorem mem_argwhere {input : List (Option ℚ)} {p : Option ℚ → Bool} {i : ℕ} :
    i ∈ BinIdx.argwhere input p ↔ i < input.length ∧ p (input.getD i none) = true := by
  simp [BinIdx.argwhere, List.mem_filter, List.mem_range]

theorem get_bin_ind_length (input : List (Option ℚ)) (c : ℕ → ℚ) (n : ℕ) :
    (BinIdx.get_bin_ind input c n).length = n := by
  simp [BinIdx.get_bin_ind]

theorem get_bin_ind_getD (input : List (Option ℚ)) (c : ℕ → ℚ) (n : ℕ) {j : ℕ}
    (hj : j < n) :
    (BinIdx.get_bin_ind input c n).getD j [] =
      BinIdx.argwhere input (BinIdx.optPred (BinIdx.binPred c n j)) := by
  rw [List.getD_eq_getElem _ _ (by rw [get_bin_ind_length]; exact hj)]
  simp [BinIdx.get_bin_ind]

theorem mem_get_bin_ind_iff (input : List (Option ℚ)) (c : ℕ → ℚ) (n : ℕ)
    {j i : ℕ} (hj : j < n) (hi : i < input.length) :
    i ∈ (BinIdx.get_bin_ind input c n).getD j [] ↔
      BinIdx.optPred (BinIdx.binPred c n j) (input.getD i none) = true := by
  rw [get_bin_ind_getD input c n hj, mem_argwhere]
  simp [hi]

theorem centers_lt {n : ℕ} (c : ℕ → ℚ) (hc : ∀ i, i + 1 < n → c i < c (i + 1)) :
    ∀ i j, i < j → j < n → c i < c j := by
  intro i j
  induction j with
  | zero => intro h _; omega
  | succ k ih =>
    intro hij hjn
    rcases Nat.lt_succ_iff_lt_or_eq.mp hij with h | h
    · exact lt_trans (ih h (by omega)) (hc k (by omega))
    · subst h; exact hc i hjn

theorem boundary_eq (c : ℕ → ℚ) (i : ℕ) :
    BinIdx.boundary c i = (c i + c (i + 1)) / 2 := by
  unfold BinIdx.boundary BinIdx.binDiff; ring

theorem boundary_le_boundary {n : ℕ} (c : ℕ → ℚ)
    (hc : ∀ i, i + 1 < n → c i < c (i + 1)) {i j : ℕ} (hij : i ≤ j)
    (hj : j + 1 < n) : BinIdx.boundary c i ≤ BinIdx.boundary c j := by
  rcases eq_or_lt_of_le hij with h | h
  · subst h; exact le_refl _
  · rw [boundary_eq, boundary_eq]
    have h1 : c i < c j := centers_lt c hc i j h (by omega)
    have h2 : c (i + 1) < c (j + 1) := centers_lt c hc (i + 1) (j + 1) (by omega) hj
    linarith

theorem binPred_exists_unique {n : ℕ} (c : ℕ → ℚ) (hn : 2 ≤ n)
    (hc : ∀ i, i + 1 < n → c i < c (i + 1)) (v : ℚ) :
    ∃! j, j < n ∧ BinIdx.binPred c n j v = true := by
  by_cases h0 : v ≤ BinIdx.boundary c 0
  · refine ⟨0, ⟨by omega, by simp [BinIdx.binPred, h0]⟩, ?_⟩
    rintro j ⟨hjn, hjp⟩
    by_contra hne
    unfold BinIdx.binPred at hjp
    rw [if_neg hne] at hjp
    by_cases hlast : j = n - 1
    · rw [if_pos hlast] at hjp
      have hv : BinIdx.boundary c (n - 2) < v := of_decide_eq_true hjp
      have hb : BinIdx.boundary c 0 ≤ BinIdx.boundary c (n - 2) :=
        boundary_le_boundary c hc (by omega) (by omega)
      linarith
    · rw [if_neg hlast] at hjp
      rw [Bool.and_eq_true] at hjp
      obtain ⟨hp1, _⟩ := hjp
      have h1 : BinIdx.boundary c (j - 1) < v := of_decide_eq_true hp1
      have hb : BinIdx.boundary c 0 ≤ BinIdx.boundary c (j - 1) :=
        boundary_le_boundary c hc (by omega) (by omega)
      linarith
  · by_cases hlast : BinIdx.boundary c (n - 2) < v
    · refine ⟨n - 1, ⟨by omega, ?_⟩, ?_⟩
      · unfold BinIdx.binPred
        rw [if_neg (by omega), if_pos rfl]
        exact decide_eq_true hlast
      · rintro j ⟨hjn, hjp⟩
        by_contra hne
        unfold BinIdx.binPred at hjp
        by_cases hj0 : j = 0
        · rw [if_pos hj0] at hjp
          exact h0 (of_decide_eq_true hjp)
        · rw [if_neg hj0, if_neg hne] at hjp
          rw [Bool.and_eq_true] at hjp
          obtain ⟨_, hp2⟩ := hjp
          have h2 : v ≤ BinIdx.boundary c j := of_decide_eq_true hp2
          have hb : BinIdx.boundary c j ≤ BinIdx.boundary c (n - 2) :=
            boundary_le_boundary c hc (by omega) (by omega)
          linarith
    · have hP : ∃ j, v ≤ BinIdx.boundary c j := ⟨n - 2, not_lt.mp hlast⟩
      have hj0P : v ≤ BinIdx.boundary c (Nat.find hP) := Nat.find_spec hP
      have hj0le : Nat.find hP ≤ n - 2 := Nat.find_min' hP (not_lt.mp hlast)
      have hj0pos : 0 < Nat.find hP := by
        rcases Nat.eq_zero_or_pos (Nat.find hP) with h | h
        · rw [h] at hj0P; exact absurd hj0P h0
        · exact h
      refine ⟨Nat.find hP, ⟨by omega, ?_⟩, ?_⟩
      · unfold BinIdx.binPred
        rw [if_neg (by omega), if_neg (by omega), Bool.and_eq_true]
        refine ⟨decide_eq_true (not_le.mp (Nat.find_min hP (by omega))), decide_eq_true hj0P⟩
      · rintro j ⟨hjn, hjp⟩
        unfold BinIdx.binPred at hjp
        by_cases hj0 : j = 0
        · rw [if_pos hj0] at hjp
          exact absurd (of_decide_eq_true hjp) h0
        · by_cases hjl : j = n - 1
          · rw [if_neg hj0, if_pos hjl] at hjp
            exact absurd (of_decide_eq_true hjp) hlast
          · rw [if_neg hj0, if_neg hjl] at hjp
            rw [Bool.and_eq_true] at hjp
            obtain ⟨hp1, hp2⟩ := hjp
            have h1 : BinIdx.boundary c (j - 1) < v := of_decide_eq_true hp1
            have h2 : v ≤ BinIdx.boundary c j := of_decide_eq_true hp2
            have hge : Nat.find hP ≤ j := Nat.find_min' hP h2
            by_contra hne
            have hlt : Nat.find hP < j := lt_of_le_of_ne hge (fun h => hne h.symm)
            have hb : BinIdx.boundary c (Nat.find hP) ≤ BinIdx.boundary c (j - 1) :=
              boundary_le_boundary c hc (by omega) (by omega)
            linarith

/-- C4: for every bin-center array with at least two monotonically
increasing centers, bin_indices partitions the non-NaN input indices
exactly: a NaN index lands in no bin, a non-NaN index lands in exactly one
bin; a value v ≤ centers[0] + halfwidth[0] lands in bin 0, a value
v > centers[n-2] + halfwidth[n-2] lands in the last bin, and an interior
bin j captures exactly ((centers[j-1]+centers[j])/2,
(centers[j]+centers[j+1])/2]. -/
theorem c4_bin_indices_partition (c : ℕ → ℚ) (n : ℕ) (hn : 2 ≤ n)
    (hc : ∀ i, i + 1 < n → c i < c (i + 1))
    (input : List (Option ℚ)) (i : ℕ) (hi : i < input.length) :
    (BinIdx.get_bin_ind input c n).length = n
    ∧ (input.getD i none = none →
        ∀ j, i ∉ (BinIdx.get_bin_ind input c n).getD j [])
    ∧ (∀ v, input.getD i none = some v →
        (∃! j, j < n ∧ i ∈ (BinIdx.get_bin_ind input c n).getD j [])
        ∧ (i ∈ (BinIdx.get_bin_ind input c n).getD 0 [] ↔ v ≤ (c 0 + c 1) / 2)
        ∧ (i ∈ (BinIdx.get_bin_ind input c n).getD (n - 1) [] ↔
            (c (n - 2) + c (n - 1)) / 2 < v)
        ∧ (∀ j, 0 < j → j < n - 1 →
            (i ∈ (BinIdx.get_bin_ind input c n).getD j [] ↔
              ((c (j - 1) + c j) / 2 < v ∧ v ≤ (c j + c (j + 1)) / 2)))) := by
  refine ⟨get_bin_ind_length input c n, ?_, ?_⟩
  · intro hnan j
    by_cases hj : j < n
    · rw [mem_get_bin_ind_iff input c n hj hi, hnan]
      simp [BinIdx.optPred]
    · rw [List.getD_eq_default _ _ (by rw [get_bin_ind_length]; omega)]
      exact List.not_mem_nil i
  · intro v hv
    have hmem : ∀ j, j < n →
        (i ∈ (BinIdx.get_bin_ind input c n).getD j [] ↔
          BinIdx.binPred c n j v = true) := by
      intro j hj
      rw [mem_get_bin_ind_iff input c n hj hi, hv]
      simp [BinIdx.optPred]
    refine ⟨?_, ?_, ?_, ?_⟩
    · obtain ⟨j0, ⟨hj0n, hj0p⟩, huniq⟩ := binPred_exists_unique c hn hc v
      refine ⟨j0, ⟨hj0n, (hmem j0 hj0n).mpr hj0p⟩, ?_⟩
      rintro j ⟨hjn, hjm⟩
      exact huniq j ⟨hjn, (hmem j hjn).mp hjm⟩
    · rw [hmem 0 (by omega)]
      unfold BinIdx.binPred
      rw [if_pos rfl, boundary_eq, decide_eq_true_eq]
    · rw [hmem (n - 1) (by omega)]
      unfold BinIdx.binPred
      rw [if_neg (by omega), if_pos rfl, boundary_eq, decide_eq_true_eq]
      have he : (n - 2) + 1 = n - 1 := by omega
      rw [he]
    · intro j hj0 hjl
      rw [hmem j (by omega)]
      unfold BinIdx.binPred
      rw [if_neg (by omega), if_neg (by omega), Bool.and_eq_true,
        decide_eq_true_eq, decide_eq_true_eq, boundary_eq, boundary_eq]
      have he : (j - 1) + 1 = j := by omega
      rw [he]

/-- Witness for C4: two centers 10 and 20, input [some 12, none, some 100];
index 0 (value 12 ≤ 15) lies in exactly one bin. -/
theorem c4_witness :
    ∃! j, j < 2 ∧ 0 ∈ (BinIdx.get_bin_ind [some 12, none, some 100] cW 2).getD j [] := by
  have h := c4_bin_indices_partition cW 2 (by omega)
    (by
      intro i hi
      have h0 : i = 0 := by omega
      subst h0
      norm_num [cW])
    [some 12, none, some 100] 0 (by simp)
  exact (h.2.2 12 rfl).1

/-- C8: for every transect interval, the male and female numerical
densities are the total times the sex proportion, rounded (half to even)
independently; unsexed is the total minus male minus female, so the three
sum exactly to the total numerical density; the unsexed density can be
negative when the roundings compound. -/
theorem c8_density_split_sums (numD mP fP wM wF wAll : ℚ) :
    (Density.getTotBiomassDensity numD mP fP wM wF wAll).maleN
        = ((Density.npRound (numD * mP) : ℤ) : ℚ)
      ∧ (Density.getTotBiomassDensity numD mP fP wM wF wAll).femaleN
        = ((Density.npRound (numD * fP) : ℤ) : ℚ)
      ∧ (Density.getTotBiomassDensity numD mP fP wM wF wAll).unsexedN
        = numD - (Density.getTotBiomassDensity numD mP fP wM wF wAll).maleN
          - (Density.getTotBiomassDensity numD mP fP wM wF wAll).femaleN
      ∧ (Density.getTotBiomassDensity numD mP fP wM wF wAll).maleN
          + (Density.getTotBiomassDensity numD mP fP wM wF wAll).femaleN
          + (Density.getTotBiomassDensity numD mP fP wM wF wAll).unsexedN = numD
      ∧ ∃ t m f, (Density.getTotBiomassDensity t m f 1 1 1).unsexedN < 0 := by
  refine ⟨rfl, rfl, rfl, ?_, ⟨1, 3 / 4, 3 / 4, ?_⟩⟩
  · show ((Density.npRound (numD * mP) : ℤ) : ℚ) + ((Density.npRound (numD * fP) : ℤ) : ℚ)
      + (numD - ((Density.npRound (numD * mP) : ℤ) : ℚ)
        - ((Density.npRound (numD * fP) : ℤ) : ℚ)) = numD
    ring
  · have hf : ⌊(1 : ℚ) * (3 / 4)⌋ = 0 := by
      rw [show (1 : ℚ) * (3 / 4) = 3 / 4 by norm_num]
      exact Int.floor_eq_iff.mpr (by norm_num)
    show (Density.getTotBiomassDensity 1 (3 / 4) (3 / 4) 1 1 1).unsexedN < 0
    simp only [Density.getTotBiomassDensity, Density.npRound, hf]
    norm_num

/-- C10: the interior-average branch of the gap filler calls
np.argpartition with kth = 2, which is out of bounds for a 2-element
distance array: with exactly two known strata and a missing stratum id
strictly between them the fill operation raises (modelled none) instead of
returning the average of the two known values. -/
theorem c10_interior_fill_two_known_fails (df : List (ℤ × ℚ)) (s minK maxK : ℤ)
    (hlen : df.length = 2)
    (hmax : Util.listMax (df.map Prod.fst) = some maxK)
    (hmin : Util.listMin (df.map Prod.fst) = some minK)
    (h1 : minK < s) (h2 : s < maxK) :
    GapFill.fillMissing df [s] = none := by
  rw [fillMissing_single df s minK maxK hmax hmin]
  have hone : (decide (df.length = 1)) = false := by simp [hlen]
  have h2x : ¬ (maxK < s) := not_lt.mpr h2.le
  have h1x : ¬ (s < minK) := not_lt.mpr h1.le
  have hc : GapFill.closestTwo s df = none := by
    unfold GapFill.closestTwo
    rw [if_pos (by omega)]
  simp [GapFill.fillStep, hone, h2x, h1x, hc]

/-- Witness for C10 at a concrete table: strata 1 and 3 known, stratum 2
missing. -/
theorem c10_witness : GapFill.fillMissing [((1 : ℤ), (10 : ℚ)), (3, 20)] [2] = none :=
  c10_interior_fill_two_known_fails [((1 : ℤ), (10 : ℚ)), (3, 20)] 2 1 3
    (by decide) (by decide) (by decide) (by decide) (by decide)

/-- C5 counterexample: a table with exactly two known strata (0 and 2) and
the interior stratum 1 missing; the claimed four-case policy would fill
stratum 1 with the mean 6 of the two closest known values, but the fill
operation fails (np.argpartition kth = 2 on a 2-element array). -/
theorem c5_counterexample :
    GapFill.fillMissing [((0 : ℤ), (4 : ℚ)), (2, 8)] [1] = none := by decide

/-- C5 (amended): for a single missing stratum the four-case policy holds,
provided at least three strata are known when the missing id is interior
(with exactly two the operation fails, see C10), and with the nearest-two
selection made unambiguous by pairwise distinct distances. -/
theorem c5_fill_policy_amended (df : List (ℤ × ℚ)) (s minK maxK : ℤ)
    (hmax : Util.listMax (df.map Prod.fst) = some maxK)
    (hmin : Util.listMin (df.map Prod.fst) = some minK) :
    (∀ k v, df = [(k, v)] → GapFill.fillMissing df [s] = some [(k, v), (s, v)])
    ∧ (df.length ≠ 1 → maxK < s →
        GapFill.fillMissing df [s] = some (df ++ [(s, GapFill.lookupVal df maxK)]))
    ∧ (df.length ≠ 1 → s < minK →
        GapFill.fillMissing df [s] = some (df ++ [(s, GapFill.lookupVal df minK)]))
    ∧ (3 ≤ df.length → ¬ (maxK < s) → ¬ (s < minK) → df.Nodup →
        (∀ p ∈ df, ∀ q ∈ df, p ≠ q → GapFill.dist s p ≠ GapFill.dist s q) →
        ∃ p q, p ∈ df ∧ q ∈ df ∧ p ≠ q ∧
          (∀ r ∈ df, r ≠ p → r ≠ q → GapFill.dist s p < GapFill.dist s r ∧
            GapFill.dist s q < GapFill.dist s r) ∧
          GapFill.fillMissing df [s] = some (df ++ [(s, (p.2 + q.2) / 2)])) := by
  refine ⟨?_, ?_, ?_, ?_⟩
  · intro k v hdf
    subst hdf
    have hmk : maxK = k := by
      simp [Util.listMax] at hmax; omega
    rw [fillMissing_single _ s minK maxK hmax hmin]
    subst hmk
    simp [GapFill.fillStep, GapFill.lookupVal]
  · intro hlen hgt
    rw [fillMissing_single df s minK maxK hmax hmin]
    have hone : (decide (df.length = 1)) = false := by simp [hlen]
    simp [GapFill.fillStep, hone, hgt]
  · intro hlen hltm
    rw [fillMissing_single df s minK maxK hmax hmin]
    have hone : (decide (df.length = 1)) = false := by simp [hlen]
    have hmm : minK ≤ maxK := listMin_le_listMax (df.map Prod.fst) minK maxK hmin hmax
    have hgt : ¬ (maxK < s) := by omega
    simp [GapFill.fillStep, hone, hgt, hltm]
  · intro h3 hgt hlt hnd hdist
    obtain ⟨p, q, hpm, hqm, hpq, hmin2, hct⟩ := closestTwo_spec s df h3 hnd hdist
    refine ⟨p, q, hpm, hqm, hpq, hmin2, ?_⟩
    rw [fillMissing_single df s minK maxK hmax hmin]
    have hone : (decide (df.length = 1)) = false := by
      simp; omega
    simp [GapFill.fillStep, hone, hgt, hlt, hct]

/-- Witness for the amended C5 at a concrete table: strata 1, 4, 7 known,
stratum 3 missing and interior; the fill succeeds and averages the two
closest known strata. -/
theorem c5_witness :
    ∃ p q, p ∈ [((1 : ℤ), (10 : ℚ)), (4, 40), (7, 70)]
      ∧ q ∈ [((1 : ℤ), (10 : ℚ)), (4, 40), (7, 70)] ∧ p ≠ q
      ∧ (∀ r ∈ [((1 : ℤ), (10 : ℚ)), (4, 40), (7, 70)], r ≠ p → r ≠ q →
          GapFill.dist 3 p < GapFill.dist 3 r ∧ GapFill.dist 3 q < GapFill.dist 3 r)
      ∧ GapFill.fillMissing [((1 : ℤ), (10 : ℚ)), (4, 40), (7, 70)] [3] =
          some ([((1 : ℤ), (10 : ℚ)), (4, 40), (7, 70)] ++ [(3, (p.2 + q.2) / 2)]) :=
  (c5_fill_policy_amended [((1 : ℤ), (10 : ℚ)), (4, 40), (7, 70)] 3 1 7
      (by decide) (by decide)).2.2.2
    (by decide) (by decide) (by decide) (by decide) (by decide)

/-- C6 counterexample: a haul (number 1) that appears only in the
station-1 length table, with a nonzero count, receives no cross section at
all (the source loop enumerates specimen hauls only, so sig_bs_haul stays
NaN), contradicting the claim that a haul present in only one station
still receives a cross section from that station. -/
theorem c6_counterexample :
    SigB.sigBsHaul (fun l => l) [] [⟨1, 10, 5⟩] 1 = none
    ∧ SigB.lenRowsOf [⟨1, 10, 5⟩] 1 ≠ [] := by
  exact ⟨rfl, by decide⟩

/-- C6 (amended): for every haul with at least one qualifying station-2
specimen observation whose station-1 row count is not exactly one (a haul
with exactly one station-1 row crashes the whole computation: the
single-row .loc Series has a scalar ["length"] with no .values), the
haul-level cross section is the sum of per-fish linear backscatter values
(station-1 rows weighted by their counts, station-2 specimens weight 1
each) divided by the total sample count over both stations; in particular
a haul absent from station 1 receives the cross section computed from
station-2 data alone.  (A haul present only in station 1 receives none,
see the counterexample.) -/
theorem c6_sigbs_haul_amended (sigma : ℚ → ℚ) (spec : List SigB.SpecRow)
    (len : List SigB.LenRow) (h : ℕ) (hq : SigB.specLens spec h ≠ [])
    (hone : (SigB.lenRowsOf len h).length ≠ 1) :
    SigB.sigBsHaul sigma spec len h =
      some ((((SigB.specLens spec h).map sigma).sum
          + ((SigB.lenRowsOf len h).map (fun r => sigma r.len * r.count)).sum)
        / (((SigB.lenRowsOf len h).map (fun r => r.count)).sum
          + ((SigB.specLens spec h).length : ℚ)))
    ∧ (SigB.lenRowsOf len h = [] →
        SigB.sigBsHaul sigma spec len h =
          some (((SigB.specLens spec h).map sigma).sum
            / ((SigB.specLens spec h).length : ℚ))) := by
  constructor
  · simp only [SigB.sigBsHaul]
    cases hsl : SigB.specLens spec h with
    | nil => exact absurd hsl hq
    | cons a as => simp [hone]
  · intro hlen
    simp only [SigB.sigBsHaul]
    cases hsl : SigB.specLens spec h with
    | nil => exact absurd hsl hq
    | cons a as => simp [hlen]

/-- Witness for the amended C6: a haul with two specimens (lengths 2 and
4) and two station-1 rows (length 10 count 5, length 20 count 2); with
the identity in place of the transcendental length-to-sigma conversion
the weighted mean is (2 + 4 + 10 * 5 + 20 * 2) / (5 + 2 + 2) = 32 / 3. -/
theorem c6_witness :
    SigB.sigBsHaul (fun l => l) [⟨1, some 2, some 3⟩, ⟨1, some 4, some 1⟩]
      [⟨1, 10, 5⟩, ⟨1, 20, 2⟩] 1 = some (32 / 3) := by
  rw [(c6_sigbs_haul_amended (fun l => l) [⟨1, some 2, some 3⟩, ⟨1, some 4, some 1⟩]
    [⟨1, 10, 5⟩, ⟨1, 20, 2⟩] 1 (by decide) (by decide)).1]
  norm_num [SigB.specLens, SigB.lenRowsOf, List.filterMap_cons]

/-- C9 counterexample: with an empty station-1 table the length-bin
distribution entries are NaN (total bin count zero divides every bin
count), not the claimed 0.0 fallback; likewise the sex/station proportions
at zero total sample count are NaN, not 0.0. -/
theorem c9_counterexample :
    Comp.distributionStation1 [] cW 2 = [none, none]
    ∧ (Comp.computeProportions 0 0 0 0 0).fac1M = none := by
  constructor
  · simp [Comp.distributionStation1, Comp.binCounts1, BinIdx.get_bin_ind,
      BinIdx.argwhere, List.range_succ]
  · norm_num [Comp.computeProportions]

/-- C9 (amended): the divide-by-zero-prone ratios of the composition
computations are not guarded: a zero total sample count makes every
length-bin distribution entry and every proportion non-finite (NaN,
modelled none) instead of the claimed 0.0 fallback; no exception is raised
(the computations are total). -/
theorem c9_ratios_nan_amended :
    (∀ (rows : List (ℚ × ℚ)) (c : ℕ → ℚ) (n : ℕ), (Comp.binCounts1 rows c n).sum = 0 →
        ∀ x ∈ Comp.distributionStation1 rows c n, x = none)
    ∧ (∀ (lengths : List ℚ) (c : ℕ → ℚ) (n : ℕ), (Comp.binCounts2 lengths c n).sum = 0 →
        ∀ x ∈ Comp.distributionStation2 lengths c n, x = none)
    ∧ (∀ (nM nF : ℕ) (lenTot lenM lenF : ℚ), (nM : ℚ) + (nF : ℚ) + lenTot = 0 →
        Comp.computeProportions nM nF lenTot lenM lenF =
          ⟨none, none, none, none, none, none, none, none, none, none⟩) := by
  refine ⟨?_, ?_, ?_⟩
  · intro rows c n h0 x hx
    simp only [Comp.distributionStation1] at hx
    rcases List.mem_map.mp hx with ⟨cnt, hcnt, hfx⟩
    rw [← hfx, if_pos h0]
  · intro lengths c n h0 x hx
    simp only [Comp.distributionStation2] at hx
    rcases List.mem_map.mp hx with ⟨cnt, hcnt, hfx⟩
    rw [← hfx, if_pos h0]
  · intro nM nF lenTot lenM lenF h0
    simp only [Comp.computeProportions]
    rw [if_pos h0]

/-- Witness for the amended C9: the empty station-1 table has zero total
count and produces only NaN entries. -/
theorem c9_witness : ∀ x ∈ Comp.distributionStation1 [] cW 2, x = none :=
  c9_ratios_nan_amended.1 [] cW 2
    (by simp [Comp.binCounts1, BinIdx.get_bin_ind, BinIdx.argwhere, List.range_succ])

/-- C7 counterexample: stratum with 1 male and 1 female specimen at
station 2 and total station-1 count 2; the male blending coefficients are
2/3 (station 1) and 3/11 (station 2), which do not sum to 1: the second
normalisation divides by the already renormalised station-1 coefficient
(the defect flagged by the inline TODOs of the source). -/
theorem c7_counterexample :
    (Comp.computeProportions 1 1 2 1 1).fac1M = some (2 / 3)
    ∧ (Comp.computeProportions 1 1 2 1 1).fac2M = some (3 / 11)
    ∧ (2 / 3 : ℚ) + 3 / 11 ≠ 1 := by
  refine ⟨?_, ?_, by norm_num⟩
  · norm_num [Comp.computeProportions]
  · norm_num [Comp.computeProportions]

/-- C7 (amended): for a stratum with nonzero sexed sample and nonzero
station-1-plus-own-sex sample for each sex, the blending coefficients are
all defined and lie in [0,1], and for each sex they sum to AT MOST 1 (not
exactly 1: the station-2 coefficient is normalised against the already
renormalised station-1 coefficient, the defect the source flags with
inline TODOs), so they need not form a convex combination; the
whole-population station weights tot_prop do form a convex pair summing
to 1. -/
theorem c7_blending_amended (nM nF : ℕ) (lenTot lenM lenF : ℚ)
    (hA : 0 ≤ lenTot) (hAM : 0 < lenTot + (nM : ℚ)) (hAF : 0 < lenTot + (nF : ℚ)) :
    ∃ f1M f2M f1F f2F t1 t2,
      (Comp.computeProportions nM nF lenTot lenM lenF).fac1M = some f1M
      ∧ (Comp.computeProportions nM nF lenTot lenM lenF).fac2M = some f2M
      ∧ (Comp.computeProportions nM nF lenTot lenM lenF).fac1F = some f1F
      ∧ (Comp.computeProportions nM nF lenTot lenM lenF).fac2F = some f2F
      ∧ (Comp.computeProportions nM nF lenTot lenM lenF).totProp1 = some t1
      ∧ (Comp.computeProportions nM nF lenTot lenM lenF).totProp2 = some t2
      ∧ 0 ≤ f1M ∧ f1M ≤ 1 ∧ 0 ≤ f2M ∧ f2M ≤ 1 ∧ f1M + f2M ≤ 1
      ∧ 0 ≤ f1F ∧ f1F ≤ 1 ∧ 0 ≤ f2F ∧ f2F ≤ 1 ∧ f1F + f2F ≤ 1
      ∧ 0 ≤ t1 ∧ 0 ≤ t2 ∧ t1 + t2 = 1 := by
  have hM0 : (0 : ℚ) ≤ (nM : ℚ) := Nat.cast_nonneg nM
  have hF0 : (0 : ℚ) ≤ (nF : ℚ) := Nat.cast_nonneg nF
  have hT : (0 : ℚ) < (nM : ℚ) + (nF : ℚ) + lenTot := by linarith
  have hTne : (nM : ℚ) + (nF : ℚ) + lenTot ≠ 0 := ne_of_gt hT
  simp only [Comp.computeProportions, if_neg hTne]
  set A := lenTot with hAdef
  set M := (nM : ℚ) with hMdef
  set F := (nF : ℚ) with hFdef
  set T := M + F + A with hTdef
  have hTpos : (0 : ℚ) < T := hT
  have hTne2 : T ≠ 0 := ne_of_gt hTpos
  have hAMpos : (0 : ℚ) < A + M := hAM
  have hAFpos : (0 : ℚ) < A + F := hAF
  have hAMne : A + M ≠ 0 := ne_of_gt hAMpos
  have hAFne : A + F ≠ 0 := ne_of_gt hAFpos
  have hnum : 1 - (M / T + F / T) = A / T := by
    rw [hTdef]; field_simp
  have he1 : 1 - (M / T + F / T) + M / T = (A + M) / T := by
    rw [hTdef]; field_simp
  have he2 : 1 - (M / T + F / T) + F / T = (A + F) / T := by
    rw [hTdef]; field_simp
  have he3 : 1 - (M / T + F / T) + (M / T + F / T) = 1 := by ring
  rw [he1, he2, he3]
  have hne1 : (A + M) / T ≠ 0 := div_ne_zero hAMne hTne2
  have hne2 : (A + F) / T ≠ 0 := div_ne_zero hAFne hTne2
  simp only [if_neg hne1, if_neg hne2, if_neg (one_ne_zero (α := ℚ))]
  have huM : (1 - (M / T + F / T)) / ((A + M) / T) = A / (A + M) := by
    rw [hnum, div_div_div_cancel_right₀ hTne2]
  have huF : (1 - (M / T + F / T)) / ((A + F) / T) = A / (A + F) := by
    rw [hnum, div_div_div_cancel_right₀ hTne2]
  rw [huM, huF]
  simp only [Option.some_bind, div_one]
  have hd2M : 0 < A / (A + M) + M / T := by
    by_cases hMz : M = 0
    · rw [hMz]
      have : A ≠ 0 := by rw [hMz] at hAMpos; simpa using ne_of_gt hAMpos
      simp [div_self this]
    · have hMpos : 0 < M := lt_of_le_of_ne hM0 (Ne.symm hMz)
      have h1 : 0 < M / T := div_pos hMpos hTpos
      have h2 : 0 ≤ A / (A + M) := div_nonneg hA (le_of_lt hAMpos)
      linarith
  have hd2F : 0 < A / (A + F) + F / T := by
    by_cases hFz : F = 0
    · rw [hFz]
      have : A ≠ 0 := by rw [hFz] at hAFpos; simpa using ne_of_gt hAFpos
      simp [div_self this]
    · have hFpos : 0 < F := lt_of_le_of_ne hF0 (Ne.symm hFz)
      have h1 : 0 < F / T := div_pos hFpos hTpos
      have h2 : 0 ≤ A / (A + F) := div_nonneg hA (le_of_lt hAFpos)
      linarith
  simp only [if_neg (ne_of_gt hd2M), if_neg (ne_of_gt hd2F), he3,
    if_neg (one_ne_zero (α := ℚ)), div_one]
  refine ⟨_, _, _, _, _, _, rfl, rfl, rfl, rfl, rfl, rfl, ?_⟩
  have humle : A / (A + M) + M / T ≤ 1 := by
    rw [div_add_div _ _ hAMne hTne2, div_le_one (by positivity)]
    rw [hTdef]
    nlinarith [mul_nonneg hM0 hF0]
  have hufle : A / (A + F) + F / T ≤ 1 := by
    rw [div_add_div _ _ hAFne hTne2, div_le_one (by positivity)]
    rw [hTdef]
    nlinarith [mul_nonneg hF0 hM0]
  have g1M : 0 ≤ A / (A + M) := div_nonneg hA (le_of_lt hAMpos)
  have g2M : A / (A + M) ≤ 1 := (div_le_one hAMpos).mpr (by linarith)
  have g1F : 0 ≤ A / (A + F) := div_nonneg hA (le_of_lt hAFpos)
  have g2F : A / (A + F) ≤ 1 := (div_le_one hAFpos).mpr (by linarith)
  have g3M : 0 ≤ M / T / (A / (A + M) + M / T) :=
    div_nonneg (div_nonneg hM0 (le_of_lt hTpos)) (le_of_lt hd2M)
  have g3F : 0 ≤ F / T / (A / (A + F) + F / T) :=
    div_nonneg (div_nonneg hF0 (le_of_lt hTpos)) (le_of_lt hd2F)
  have g4M : M / T / (A / (A + M) + M / T) ≤ 1 :=
    (div_le_one hd2M).mpr (by linarith)
  have g4F : F / T / (A / (A + F) + F / T) ≤ 1 :=
    (div_le_one hd2F).mpr (by linarith)
  have g5M : A / (A + M) + M / T / (A / (A + M) + M / T) ≤ 1 := by
    have hkey : M / T / (A / (A + M) + M / T) ≤ 1 - A / (A + M) := by
      rw [div_le_iff₀ hd2M]
      nlinarith [mul_nonneg g1M (by linarith : (0 : ℚ) ≤ 1 - A / (A + M) - M / T)]
    linarith
  have g5F : A / (A + F) + F / T / (A / (A + F) + F / T) ≤ 1 := by
    have hkey : F / T / (A / (A + F) + F / T) ≤ 1 - A / (A + F) := by
      rw [div_le_iff₀ hd2F]
      nlinarith [mul_nonneg g1F (by linarith : (0 : ℚ) ≤ 1 - A / (A + F) - F / T)]
    linarith
  have gt1 : 0 ≤ 1 - (M / T + F / T) := by
    have : M / T + F / T ≤ 1 := by
      rw [div_add_div_same, div_le_one hTpos, hTdef]
      linarith
    linarith
  have gt2 : 0 ≤ M / T + F / T := by positivity
  exact ⟨g1M, g2M, g3M, g4M, g5M, g1F, g2F, g3F, g4F, g5F, gt1, gt2, by ring⟩

/-- Witness for the amended C7 at the stratum of the counterexample
(1 male and 1 female specimen, station-1 total count 2). -/
theorem c7_witness :
    ∃ f1M f2M f1F f2F t1 t2,
      (Comp.computeProportions 1 1 2 1 1).fac1M = some f1M
      ∧ (Comp.computeProportions 1 1 2 1 1).fac2M = some f2M
      ∧ (Comp.computeProportions 1 1 2 1 1).fac1F = some f1F
      ∧ (Comp.computeProportions 1 1 2 1 1).fac2F = some f2F
      ∧ (Comp.computeProportions 1 1 2 1 1).totProp1 = some t1
      ∧ (Comp.computeProportions 1 1 2 1 1).totProp2 = some t2
      ∧ 0 ≤ f1M ∧ f1M ≤ 1 ∧ 0 ≤ f2M ∧ f2M ≤ 1 ∧ f1M + f2M ≤ 1
      ∧ 0 ≤ f1F ∧ f1F ≤ 1 ∧ 0 ≤ f2F ∧ f2F ≤ 1 ∧ f1F + f2F ≤ 1
      ∧ 0 ≤ t1 ∧ 0 ≤ t2 ∧ t1 + t2 = 1 :=
  c7_blending_amended 1 1 2 1 1 (by norm_num) (by norm_num) (by norm_num)

/-- C1 counterexample: at inputsC1 the stratum proportions sum to one and
no (sex, length bin) has nonzero unaged with zero aged mass (no imputation
is required), yet the apportionment raises (modelled none) because the
female table has zero aged mass at every length bin: the source enters the
imputation block for the zero-aged female bin and np.argmin raises on the
empty female nonzero-aged array, so no apportioned biomass is produced at
all, let alone one summing to the kriged total. -/
theorem c1_counterexample :
    (∀ s, (∑ sex, ∑ l, ∑ a, inputsC1.agedProp s sex l a)
      + (∑ sex, ∑ l, inputsC1.unagedProp s sex l * inputsC1.overallUnaged s sex) = 1)
    ∧ (∀ sex l, Apportion.unagedPivot inputsC1 l sex ≠ 0 →
        Apportion.agedLengthTotal inputsC1 sex l ≠ 0)
    ∧ Apportion.apportion inputsC1 = none := by
  have htotf : ∀ m : Fin 1,
      Apportion.agedLengthTotal inputsC1 Apportion.Sex.female m = 0 := by
    intro m
    norm_num [Apportion.agedLengthTotal, Apportion.agedPivot, Fin.sum_univ_one,
      inputsC1]
    exact fun h => absurd h (by decide)
  have hcrash : Apportion.sexCrash inputsC1 Apportion.Sex.female := by
    refine ⟨⟨0, htotf 0⟩, ?_⟩
    have hrfl : Apportion.nonzeroAgedList inputsC1 Apportion.Sex.female
        = (List.finRange 1).filter (fun l =>
            decide (Apportion.agedLengthTotal inputsC1 Apportion.Sex.female l ≠ 0)) :=
      rfl
    rw [hrfl, List.filter_eq_nil_iff]
    intro a _
    simp [htotf a]
  refine ⟨?_, ?_, ?_⟩
  · intro s
    norm_num [sum_sex, Fin.sum_univ_one, inputsC1]
  · intro sex l h
    exfalso
    apply h
    norm_num [Apportion.unagedPivot, Fin.sum_univ_one, inputsC1]
  · unfold Apportion.apportion
    rw [if_pos (Or.inr hcrash)]

/-- C1 (amended): when the weight proportions of each stratum sum to one
(aged overall plus unaged overall, the wellformedness of the upstream
proportion tables), no imputation is required (every (sex, length bin)
with nonzero unaged mass has nonzero aged mass), and ADDITIONALLY every
sex has at least one length bin with nonzero aged mass (otherwise the
engine raises, see the counterexample), the apportionment succeeds and
the apportioned biomass summed over every (sex ≠ all, length bin, age
bin) entry equals the total kriged biomass summed over strata. -/
theorem c1_apportionment_total_preserved {S L A : ℕ} (P : Apportion.Inputs S L A)
    (hnorm : ∀ s, (∑ sex, ∑ l, ∑ a, P.agedProp s sex l a)
      + (∑ sex, ∑ l, P.unagedProp s sex l * P.overallUnaged s sex) = 1)
    (hnoimp : ∀ sex l, Apportion.unagedPivot P l sex ≠ 0 →
      Apportion.agedLengthTotal P sex l ≠ 0)
    (haged : ∀ sex, ∃ l, Apportion.agedLengthTotal P sex l ≠ 0) :
    ∃ res, Apportion.apportion P = some res ∧
      (∑ sex, ∑ l, ∑ a, res.tbl sex l a) = Apportion.totalKriged P := by
  have hni : ∀ sex l, ¬ Apportion.needImpute P sex l := by
    rintro sex l ⟨h1, h2⟩
    exact hnoimp sex l h2 h1
  have hm : ¬ Apportion.sexCrash P Apportion.Sex.male :=
    not_sexCrash_of_nz (haged Apportion.Sex.male)
  have hf : ¬ Apportion.sexCrash P Apportion.Sex.female :=
    not_sexCrash_of_nz (haged Apportion.Sex.female)
  refine ⟨_, apportion_eq_some P hm hf, ?_⟩
  show (∑ sex, ∑ l, ∑ a, Apportion.table P sex l a) = Apportion.totalKriged P
  have htab : ∀ sex l, (∑ a, Apportion.table P sex l a)
      = Apportion.unagedPivot P l sex + ∑ a, Apportion.agedPivot P sex l a := by
    intro sex l
    have hz : Apportion.agedLengthTotal P sex l = 0 →
        Apportion.unagedPivot P l sex = 0 := by
      intro h0
      by_contra hne
      exact hnoimp sex l hne h0
    have hfin : ∀ a, Apportion.table P sex l a
        = Apportion.unagedRedist P sex l a + Apportion.agedPivot P sex l a := by
      intro a
      unfold Apportion.table Apportion.unagedFinal
      rw [if_neg (hni sex l)]
    rw [Finset.sum_congr rfl (fun a _ => hfin a), Finset.sum_add_distrib,
      sum_unagedRedist P sex l hz]
  have hsplit : (∑ sex, ∑ l, ∑ a, Apportion.table P sex l a)
      = (∑ sex, ∑ l, Apportion.unagedPivot P l sex)
        + (∑ sex, ∑ l, ∑ a, Apportion.agedPivot P sex l a) := by
    rw [← Finset.sum_add_distrib]
    apply Finset.sum_congr rfl
    intro sex _
    rw [← Finset.sum_add_distrib]
    apply Finset.sum_congr rfl
    intro l _
    exact htab sex l
  rw [hsplit]
  have hU : (∑ sex, ∑ l, Apportion.unagedPivot P l sex)
      = ∑ s, (∑ sex, ∑ l, P.unagedProp s sex l * P.overallUnaged s sex) * P.krig s := by
    simp only [Apportion.unagedPivot]
    calc (∑ sex, ∑ l, ∑ s, P.unagedProp s sex l * P.overallUnaged s sex * P.krig s)
        = ∑ sex, ∑ s, ∑ l, P.unagedProp s sex l * P.overallUnaged s sex * P.krig s :=
          Finset.sum_congr rfl (fun sex _ => Finset.sum_comm)
      _ = ∑ s, ∑ sex, ∑ l, P.unagedProp s sex l * P.overallUnaged s sex * P.krig s :=
          Finset.sum_comm
      _ = ∑ s, (∑ sex, ∑ l, P.unagedProp s sex l * P.overallUnaged s sex) * P.krig s := by
          apply Finset.sum_congr rfl
          intro s _
          rw [Finset.sum_mul]
          apply Finset.sum_congr rfl
          intro sex _
          rw [Finset.sum_mul]
  have hA : (∑ sex, ∑ l, ∑ a, Apportion.agedPivot P sex l a)
      = ∑ s, (∑ sex, ∑ l, ∑ a, P.agedProp s sex l a) * P.krig s := by
    simp only [Apportion.agedPivot]
    calc (∑ sex, ∑ l, ∑ a, ∑ s, P.agedProp s sex l a * P.krig s)
        = ∑ sex, ∑ l, ∑ s, ∑ a, P.agedProp s sex l a * P.krig s :=
          Finset.sum_congr rfl (fun sex _ =>
            Finset.sum_congr rfl (fun l _ => Finset.sum_comm))
      _ = ∑ sex, ∑ s, ∑ l, ∑ a, P.agedProp s sex l a * P.krig s :=
          Finset.sum_congr rfl (fun sex _ => Finset.sum_comm)
      _ = ∑ s, ∑ sex, ∑ l, ∑ a, P.agedProp s sex l a * P.krig s :=
          Finset.sum_comm
      _ = ∑ s, (∑ sex, ∑ l, ∑ a, P.agedProp s sex l a) * P.krig s := by
          apply Finset.sum_congr rfl
          intro s _
          rw [Finset.sum_mul]
          apply Finset.sum_congr rfl
          intro sex _
          rw [Finset.sum_mul]
          apply Finset.sum_congr rfl
          intro l _
          rw [Finset.sum_mul]
  rw [hU, hA, ← Finset.sum_add_distrib]
  unfold Apportion.totalKriged
  apply Finset.sum_congr rfl
  intro s _
  linear_combination P.krig s * hnorm s

/-- Witness for the amended C1 at a concrete input: one stratum with
kriged biomass 5, the aged weight split evenly between the sexes. -/
theorem c1_witness :
    ∃ res, Apportion.apportion inputsC1w = some res ∧
      (∑ sex, ∑ l, ∑ a, res.tbl sex l a) = Apportion.totalKriged inputsC1w :=
  c1_apportionment_total_preserved inputsC1w
    (by
      intro s
      have hcard : (Fintype.card Apportion.Sex) = 2 := by decide
      norm_num [sum_sex, Fin.sum_univ_one, inputsC1w, hcard])
    (by
      intro sex l h
      exfalso
      apply h
      norm_num [Apportion.unagedPivot, Fin.sum_univ_one, inputsC1w])
    (by
      intro sex
      refine ⟨0, ?_⟩
      norm_num [Apportion.agedLengthTotal, Apportion.agedPivot, Fin.sum_univ_one,
        inputsC1w])

/-- C2 counterexample: male needs imputation at length bin 0 and male has
nonzero aged mass at length bin 1 (so the claim promises finite, non-NaN,
not-all-zero male entries), but the female table has nonzero unaged mass
with no aged mass at any length bin, so the whole apportionment raises
(np.argmin of an empty sequence, modelled none) and no male entry is
produced at all. -/
theorem c2_counterexample :
    Apportion.agedLengthTotal inputsC2x Apportion.Sex.male 0 = 0
    ∧ Apportion.unagedPivot inputsC2x 0 Apportion.Sex.male ≠ 0
    ∧ Apportion.agedLengthTotal inputsC2x Apportion.Sex.male 1 ≠ 0
    ∧ Apportion.apportion inputsC2x = none := by
  have htotf : ∀ m : Fin 2,
      Apportion.agedLengthTotal inputsC2x Apportion.Sex.female m = 0 := by
    intro m
    norm_num [Apportion.agedLengthTotal, Apportion.agedPivot, Fin.sum_univ_one,
      inputsC2x]
    exact fun h => absurd h (by decide)
  have hcrash : Apportion.sexCrash inputsC2x Apportion.Sex.female := by
    constructor
    · exact ⟨0, htotf 0⟩
    · have hrfl : Apportion.nonzeroAgedList inputsC2x Apportion.Sex.female
          = (List.finRange 2).filter (fun l =>
              decide (Apportion.agedLengthTotal inputsC2x Apportion.Sex.female l ≠ 0)) :=
        rfl
      rw [hrfl, List.filter_eq_nil_iff]
      intro a _
      simp [htotf a]
  refine ⟨?_, ?_, ?_, ?_⟩
  · norm_num [Apportion.agedLengthTotal, Apportion.agedPivot, Fin.sum_univ_one,
      inputsC2x]
  · norm_num [Apportion.unagedPivot, Fin.sum_univ_one, inputsC2x]
  · norm_num [Apportion.agedLengthTotal, Apportion.agedPivot, Fin.sum_univ_one,
      inputsC2x]
  · unfold Apportion.apportion
    rw [if_pos (Or.inr hcrash)]

/-- C2 (amended): for nonnegative kriged totals and aged proportions, for
every sex and length bin with nonzero unaged apportioned mass but zero
aged mass, PROVIDED every sex has at least one length bin with nonzero
aged mass (the source raises whenever a sex has a zero-aged length bin
and an empty nonzero-aged list, even with no unaged mass at all - see the
counterexample and C3), the engine redistributes that unaged mass over age
bins with the age shape of a nearest length bin (by bin index distance)
with nonzero aged mass, so the affected entries are defined rationals
(finite, non-NaN) and their sum over age bins equals the bin's unaged mass
and in particular is not zero. -/
theorem c2_imputation_amended {S L A : ℕ} (P : Apportion.Inputs S L A)
    (sex : Apportion.Sex) (l : Fin L)
    (hk : ∀ s, 0 ≤ P.krig s)
    (ha : ∀ s sx m a, 0 ≤ P.agedProp s sx m a)
    (h0 : Apportion.agedLengthTotal P sex l = 0)
    (hu : Apportion.unagedPivot P l sex ≠ 0)
    (hnz : ∃ m, Apportion.agedLengthTotal P sex m ≠ 0)
    (hothnz : ∃ m2, Apportion.agedLengthTotal P (Apportion.Sex.other sex) m2 ≠ 0) :
    ∃ res m, Apportion.apportion P = some res
      ∧ Apportion.nearestNonzero P sex l = some m
      ∧ Apportion.agedLengthTotal P sex m ≠ 0
      ∧ (∀ m2, Apportion.agedLengthTotal P sex m2 ≠ 0 →
          Apportion.distL l m ≤ Apportion.distL l m2)
      ∧ (∀ a, res.tbl sex l a =
          Apportion.unagedPivot P l sex * Apportion.agedPivot P sex m a
            / Apportion.agedLengthTotal P sex m)
      ∧ (∑ a, res.tbl sex l a) = Apportion.unagedPivot P l sex
      ∧ (∑ a, res.tbl sex l a) ≠ 0 := by
  have hsex : ¬ Apportion.sexCrash P sex := not_sexCrash_of_nz hnz
  have hothc : ¬ Apportion.sexCrash P (Apportion.Sex.other sex) :=
    not_sexCrash_of_nz hothnz
  have hmf : ¬ Apportion.sexCrash P Apportion.Sex.male
      ∧ ¬ Apportion.sexCrash P Apportion.Sex.female := by
    cases sex
    · exact ⟨hsex, hothc⟩
    · exact ⟨hothc, hsex⟩
  obtain ⟨m, hmeq, hmmem, hmmin⟩ :=
    argminList_of_ne_nil (Apportion.distL l) (Apportion.nonzeroAgedList P sex)
      (nonzeroAgedList_ne_nil hnz)
  have hmne : Apportion.agedLengthTotal P sex m ≠ 0 :=
    (mem_nonzeroAgedList P sex m).mp hmmem
  have htbl : ∀ a, Apportion.table P sex l a =
      Apportion.unagedPivot P l sex * Apportion.agedPivot P sex m a
        / Apportion.agedLengthTotal P sex m := by
    intro a
    unfold Apportion.table Apportion.unagedFinal
    rw [if_pos ⟨h0, hu⟩]
    rw [show Apportion.nearestNonzero P sex l = some m from hmeq]
    rw [agedPivot_eq_zero_of_total P hk ha h0 a, add_zero]
  have hsum : (∑ a, Apportion.unagedPivot P l sex * Apportion.agedPivot P sex m a
      / Apportion.agedLengthTotal P sex m) = Apportion.unagedPivot P l sex := by
    rw [← Finset.sum_div, ← Finset.mul_sum]
    rw [show (∑ a, Apportion.agedPivot P sex m a) = Apportion.agedLengthTotal P sex m
      from rfl]
    rw [mul_div_assoc, div_self hmne, mul_one]
  refine ⟨_, m, apportion_eq_some P hmf.1 hmf.2, hmeq, hmne, ?_, htbl, ?_, ?_⟩
  · intro m2 hm2
    exact hmmin m2 ((mem_nonzeroAgedList P sex m2).mpr hm2)
  · rw [Finset.sum_congr rfl (fun a _ => htbl a), hsum]
  · rw [Finset.sum_congr rfl (fun a _ => htbl a), hsum]
    exact hu

/-- Witness for the amended C2: one stratum, two length bins, both sexes
with aged mass at bin 1 only, male unaged mass at bin 0; the male unaged
mass at bin 0 is redistributed with the age shape of bin 1. -/
theorem c2_witness :
    ∃ res m, Apportion.apportion inputsC2w = some res
      ∧ Apportion.nearestNonzero inputsC2w Apportion.Sex.male 0 = some m
      ∧ Apportion.agedLengthTotal inputsC2w Apportion.Sex.male m ≠ 0
      ∧ (∀ m2, Apportion.agedLengthTotal inputsC2w Apportion.Sex.male m2 ≠ 0 →
          Apportion.distL 0 m ≤ Apportion.distL 0 m2)
      ∧ (∀ a, res.tbl Apportion.Sex.male 0 a =
          Apportion.unagedPivot inputsC2w 0 Apportion.Sex.male
            * Apportion.agedPivot inputsC2w Apportion.Sex.male m a
            / Apportion.agedLengthTotal inputsC2w Apportion.Sex.male m)
      ∧ (∑ a, res.tbl Apportion.Sex.male 0 a)
          = Apportion.unagedPivot inputsC2w 0 Apportion.Sex.male
      ∧ (∑ a, res.tbl Apportion.Sex.male 0 a) ≠ 0 :=
  c2_imputation_amended inputsC2w Apportion.Sex.male 0
    (by intro s; norm_num [inputsC2w])
    (by
      intro s sx m a
      dsimp [inputsC2w]
      split <;> norm_num)
    (by
      norm_num [Apportion.agedLengthTotal, Apportion.agedPivot, Fin.sum_univ_one,
        inputsC2w])
    (by norm_num [Apportion.unagedPivot, Fin.sum_univ_one, inputsC2w])
    (by
      refine ⟨1, ?_⟩
      norm_num [Apportion.agedLengthTotal, Apportion.agedPivot, Fin.sum_univ_one,
        inputsC2w])
    (by
      refine ⟨1, ?_⟩
      norm_num [Apportion.agedLengthTotal, Apportion.agedPivot, Fin.sum_univ_one,
        inputsC2w])

/-- C3 counterexample: an input exhibiting exactly the divergence scenario
the spec describes (total imputation failure: a sex has unaged mass but no
aged mass at any length bin, so the apportioned total cannot reach the
kriged total); instead of surfacing a recoverable warning and returning
the tables, the engine raises (np.argmin of an empty sequence inside the
imputation block, modelled none). -/
theorem c3_counterexample :
    (∀ m, Apportion.agedLengthTotal inputsC3x Apportion.Sex.male m = 0)
    ∧ Apportion.unagedPivot inputsC3x 0 Apportion.Sex.male ≠ 0
    ∧ Apportion.apportion inputsC3x = none := by
  have htot : ∀ m, Apportion.agedLengthTotal inputsC3x Apportion.Sex.male m = 0 := by
    intro m
    norm_num [Apportion.agedLengthTotal, Apportion.agedPivot, Fin.sum_univ_one,
      inputsC3x]
  have hup : Apportion.unagedPivot inputsC3x 0 Apportion.Sex.male ≠ 0 := by
    norm_num [Apportion.unagedPivot, Fin.sum_univ_one, inputsC3x]
  have hcrash : Apportion.sexCrash inputsC3x Apportion.Sex.male := by
    constructor
    · exact ⟨0, htot 0⟩
    · have hrfl : Apportion.nonzeroAgedList inputsC3x Apportion.Sex.male
          = (List.finRange 1).filter (fun l =>
              decide (Apportion.agedLengthTotal inputsC3x Apportion.Sex.male l ≠ 0)) :=
        rfl
      rw [hrfl, List.filter_eq_nil_iff]
      intro a _
      simp [htot a]
  refine ⟨htot, hup, ?_⟩
  unfold Apportion.apportion
  rw [if_pos (Or.inl hcrash)]

/-- C3 (amended): whenever the imputation step completes (no sex has a
zero-aged length bin while lacking any length bin with nonzero aged
mass), the engine always returns the apportioned tables, and the warning
flag is set exactly when the total apportioned biomass differs from the
total kriged biomass - the divergence is surfaced as a non-fatal warning
and the result is still returned; but when a sex has no aged mass at any
length bin the engine raises instead (see the counterexample), which
covers in particular the total-imputation-failure divergence the spec
describes. -/
theorem c3_divergence_warns_amended {S L A : ℕ} (P : Apportion.Inputs S L A)
    (hm : ¬ Apportion.sexCrash P Apportion.Sex.male)
    (hf : ¬ Apportion.sexCrash P Apportion.Sex.female) :
    ∃ res, Apportion.apportion P = some res
      ∧ res.tbl = (fun sex l a => Apportion.table P sex l a)
      ∧ (res.warned = true ↔
          Apportion.totalApportioned P ≠ Apportion.totalKriged P) := by
  refine ⟨_, apportion_eq_some P hm hf, rfl, ?_⟩
  simp

/-- Witness for the amended C3: each sex carries aged weight proportion
one quarter (summing to one half), both sexes have nonzero aged mass, so
the imputation block never runs; the apportioned total 1 differs from the
kriged total 2 and the engine returns the tables with the warning flag. -/
theorem c3_witness :
    ∃ res, Apportion.apportion inputsC3w = some res
      ∧ res.tbl = (fun sex l a => Apportion.table inputsC3w sex l a)
      ∧ (res.warned = true ↔
          Apportion.totalApportioned inputsC3w ≠ Apportion.totalKriged inputsC3w) :=
  c3_divergence_warns_amended inputsC3w
    (not_sexCrash_of_nz ⟨0, by
      norm_num [Apportion.agedLengthTotal, Apportion.agedPivot, Fin.sum_univ_one,
        inputsC3w]⟩)
    (not_sexCrash_of_nz ⟨0, by
      norm_num [Apportion.agedLengthTotal, Apportion.agedPivot, Fin.sum_univ_one,
        inputsC3w]⟩)
